import Mathlib

/-!
Shallow embedding of the Agor core (git utilities, board channel routing,
and the orchestration services specified at their boundary) together with
proofs of the behavioural properties claimed for them.

JavaScript strings manipulated character-by-character are modelled as
`List Char`; strings only compared or concatenated are modelled as `String`.
-/

namespace Agor

/-! ## Git worktree porcelain parsing (`listWorktrees` in git utils)

`listWorktrees` runs `git worktree list --porcelain`, splits the output on
newline characters and folds the lines through a record accumulator. -/

/-- JS `s.split(sep)` for a one-character separator: every occurrence of the
separator delimits a field, so `n` separators yield `n + 1` fields. -/
def jsSplitChar (sep : Char) : List Char → List (List Char)
  | [] => [[]]
  | c :: rest =>
    if c = sep then
      [] :: jsSplitChar sep rest
    else
      match jsSplitChar sep rest with
      | [] => [[c]]
      | r :: rs => (c :: r) :: rs

/-- JS `s.replace(pat, '')` with a plain-string pattern: removes the first
occurrence of `pat` from `s` (if any), leaving the rest untouched. -/
def jsReplaceOnce (pat : List Char) : List Char → List Char
  | [] => []
  | c :: rest =>
    if pat.isPrefixOf (c :: rest) then
      (c :: rest).drop pat.length
    else
      c :: jsReplaceOnce pat rest

/-- Node `path.basename`: trailing slashes are dropped, then the component
after the last remaining slash is returned (`''` for `''`, `'/'` for all-slash
paths). -/
def basenameChars (p : List Char) : List Char :=
  let q := (p.reverse.dropWhile (fun c => c = '/')).reverse
  if q.isEmpty then
    if p.isEmpty then [] else ['/']
  else
    (q.reverse.takeWhile (fun c => c ≠ '/')).reverse

/-- The accumulator of the porcelain parser: a `Partial<WorktreeInfo>` whose
fields start out undefined. -/
structure WorktreeInfoP where
  name : Option (List Char)
  path : Option (List Char)
  ref : Option (List Char)
  sha : Option (List Char)
  detached : Option Bool
  deriving Repr, DecidableEq

/-- The empty accumulator `{}`. -/
def WorktreeInfoP.empty : WorktreeInfoP :=
  { name := none, path := none, ref := none, sha := none, detached := none }

/-- JS truthiness of an optional string field: defined and non-empty. -/
def truthyStr : Option (List Char) → Bool
  | none => false
  | some s => !s.isEmpty

/-- One iteration of the `for (const line of lines)` loop in `listWorktrees`:
updates the current record, and on a blank line pushes it (when its `path` and
`sha` are truthy) and resets. -/
def worktreeLineStep (st : WorktreeInfoP × List WorktreeInfoP) (line : List Char) :
    WorktreeInfoP × List WorktreeInfoP :=
  let current := st.1
  let worktrees := st.2
  if ("worktree ".toList).isPrefixOf line then
    let p := line.drop 9
    let c := { current with path := some p, name := some (basenameChars p) }
    (c, worktrees)
  else if ("HEAD ".toList).isPrefixOf line then
    let c := { current with sha := some (line.drop 5) }
    (c, worktrees)
  else if ("branch ".toList).isPrefixOf line then
    let c := { current with
               ref := some (jsReplaceOnce ("refs/heads/".toList) (line.drop 7))
               detached := some false }
    (c, worktrees)
  else if ("detached".toList).isPrefixOf line then
    let c := { current with detached := some true }
    (c, worktrees)
  else if line.isEmpty then
    if truthyStr current.path && truthyStr current.sha then
      (WorktreeInfoP.empty, worktrees ++ [current])
    else
      (WorktreeInfoP.empty, worktrees)
  else
    (current, worktrees)

/-- `listWorktrees` after the `git worktree list --porcelain` call: split the
captured output on newlines, fold the lines, then push the last record when
its `path` and `sha` are truthy (output without a trailing blank line). -/
def listWorktreesParse (output : List Char) : List WorktreeInfoP :=
  let lines := jsSplitChar '\n' output
  let st := lines.foldl worktreeLineStep (WorktreeInfoP.empty, [])
  if truthyStr st.1.path && truthyStr st.1.sha then
    st.2 ++ [st.1]
  else
    st.2

/-! ### Well-formed porcelain output

`git worktree list --porcelain` prints, per worktree, a `worktree <path>`
line, a `HEAD <sha>` line, and either a `branch refs/heads/<name>` line or a
`detached` line; records are separated by blank lines, with or without a
final terminator. -/

/-- One worktree record as git reports it: its path, its HEAD commit, and
either the full ref of its checked-out branch or a detached head. -/
structure PorcelainRec where
  path : List Char
  sha : List Char
  branch : Option (List Char)
  deriving Repr, DecidableEq

/-- The porcelain output is well formed: paths and SHAs are non-empty and
single-line, and a branch line carries a full `refs/heads/` ref. -/
def WfPorcelain (r : PorcelainRec) : Prop :=
  r.path ≠ [] ∧ '\n' ∉ r.path ∧ r.sha ≠ [] ∧ '\n' ∉ r.sha ∧
    ∀ br ∈ r.branch, ("refs/heads/".toList).isPrefixOf br = true ∧ '\n' ∉ br

/-- The lines git prints for one worktree record. -/
def renderLines (r : PorcelainRec) : List (List Char) :=
  ("worktree ".toList ++ r.path) :: ("HEAD ".toList ++ r.sha) ::
    (match r.branch with
     | some br => [("branch ".toList ++ br)]
     | none => ["detached".toList])

/-- The line sequence of a whole porcelain output: records separated by one
blank line. -/
def porcelainLines : List PorcelainRec → List (List Char)
  | [] => []
  | [r] => renderLines r
  | r :: rs => renderLines r ++ ([] :: porcelainLines rs)

/-- Join lines with newline characters. -/
def joinLines : List (List Char) → List Char
  | [] => []
  | [l] => l
  | l :: ls => l ++ '\n' :: joinLines ls

/-- A whole porcelain output: the joined lines, with a trailing newline (so
the output ends in a blank line) or without one. -/
def porcelainOutput (recs : List PorcelainRec) (trailing : Bool) : List Char :=
  joinLines (porcelainLines recs) ++ (if trailing then ['\n'] else [])

/-- Strip a leading `refs/heads/` from a full ref, as the claim describes the
`ref` field of a parsed record. -/
def stripHeadsRef (br : List Char) : List Char :=
  if ("refs/heads/".toList).isPrefixOf br then
    br.drop ("refs/heads/".toList).length
  else
    br

/-- The record `listWorktrees` is claimed to produce for one porcelain
record: the path after `worktree `, the SHA after `HEAD `, the ref after
`branch ` with `refs/heads/` stripped (with `detached = false`), or
`detached = true` for a detached record. -/
def expectedInfo (r : PorcelainRec) : WorktreeInfoP :=
  { name := some (basenameChars r.path)
    path := some r.path
    ref := r.branch.map stripHeadsRef
    sha := some r.sha
    detached := some r.branch.isNone }

/-! ## `cloneRepo` (git utils)

`cloneRepo` derives the repo name from the URL, ensures the repos directory
exists, refuses a target path that already exists, and only then shells out to
git.  Filesystem and git commands are recorded as an effect trace. -/

/-- `extractRepoName`: the regex `/\/([^\/]+?)(?:\.git)?$/` captures the
non-empty segment after the last slash, with one trailing `.git` stripped when
a non-empty capture remains. -/
def extractRepoName (url : String) : Option String :=
  let segs := jsSplitChar '/' url.toList
  if segs.length ≤ 1 then
    none
  else
    let seg := segs.getLastD []
    if seg.isEmpty then
      none
    else if (".git".toList).isSuffixOf seg && 4 < seg.length then
      some (String.mk (seg.take (seg.length - 4)))
    else
      some (String.mk seg)

/-- `getReposDir()`: `join(homedir(), '.agor', 'repos')`. -/
def getReposDir (home : String) : String := home ++ "/.agor/repos"

/-- An external command issued by `cloneRepo`: `mkdir -p`, `git clone`, or the
`git branch` query used to read the default branch. -/
inductive CloneEffect where
  | mkdirRec (path : String)
  | gitClone (url : String) (target : String) (bare : Bool)
  | gitBranchQuery (path : String)
  deriving Repr, DecidableEq

/-- Is the effect an invocation of git? -/
def CloneEffect.isGit : CloneEffect → Bool
  | .mkdirRec _ => false
  | .gitClone _ _ _ => true
  | .gitBranchQuery _ => true

/-- Errors surfaced by `cloneRepo` before any git command runs. -/
inductive CloneError where
  | badUrl (url : String)
  | alreadyExists (target : String)
  deriving Repr, DecidableEq

/-- `cloneRepo`, as a function of the URL, the optional target directory, the
home directory and the set of already-existing paths; returns the outcome
together with the trace of external commands it issued. -/
def cloneRepo (url : String) (targetDir : Option String) (bare : Bool)
    (home : String) (fs : List String) : Except CloneError String × List CloneEffect :=
  match extractRepoName url with
  | none => (.error (.badUrl url), [])
  | some repoName =>
    let reposDir := getReposDir home
    let targetPath := targetDir.getD (reposDir ++ "/" ++ repoName)
    if fs.contains targetPath then
      (.error (.alreadyExists targetPath), [.mkdirRec reposDir])
    else
      (.ok targetPath,
        [.mkdirRec reposDir, .gitClone url targetPath bare, .gitBranchQuery targetPath])

/-! ## `getGitState` (git utils)

The state of the repository on disk at the moment of the call: whether
`git status` succeeds (is the path a repo), what `git log -1` reports, and
whether the status is clean.  `getGitState` recomputes everything from this
environment on every call; nothing is cached. -/

/-- What the git commands observe at a path when they run. -/
structure GitObservation where
  /-- `git status` succeeds, i.e. the path is a git repository. -/
  statusOk : Bool
  /-- Result of `git log -1`: `none` when the command throws, otherwise
  `log.latest?.hash || ''`. -/
  logHash : Option String
  /-- `status.isClean()` of the same status. -/
  clean : Bool
  deriving Repr, DecidableEq

/-- `isGitRepo`: `git.status()` succeeds. -/
def isGitRepo (env : String → GitObservation) (path : String) : Bool :=
  (env path).statusOk

/-- `isClean`: `status.isClean()`. -/
def isClean (env : String → GitObservation) (path : String) : Bool :=
  (env path).clean

/-- `getGitState`: `"unknown"` when the path is not a repo or no SHA can be
determined, the SHA when clean, the SHA plus `"-dirty"` otherwise.  The whole
computation reads the environment at call time. -/
def getGitState (env : String → GitObservation) (repoPath : String) : String :=
  if !isGitRepo env repoPath then
    "unknown"
  else
    match (env repoPath).logHash with
    | none => "unknown"
    | some sha =>
      if sha = "" then
        "unknown"
      else if isClean env repoPath then
        sha
      else
        sha ++ "-dirty"

/-! ## `createWorktree` (git utils)

When `pullLatest` is set and the ref is not a bare SHA, the branch is fetched
from origin first; a fetch failure is caught and logged, never rethrown.
Then `git worktree add` always runs. -/

/-- The regex `/^[0-9a-f]{7,40}$/`: 7 to 40 lowercase hexadecimal digits. -/
def matchesShaPattern (s : String) : Bool :=
  7 ≤ s.length && s.length ≤ 40 &&
    s.toList.all (fun c => c.isDigit || ('a' ≤ c && c ≤ 'f'))

/-- JS truthiness of the optional `sourceBranch` argument. -/
def truthyArg : Option String → Bool
  | none => false
  | some s => !s.isEmpty

/-- An external git command issued by `createWorktree`. -/
inductive WtEffect where
  | fetch (remote : String) (ref : String)
  | worktreeAdd (args : List String)
  deriving Repr, DecidableEq

/-- Is the effect a fetch? -/
def WtEffect.isFetch : WtEffect → Bool
  | .fetch _ _ => true
  | .worktreeAdd _ => false

/-- Is the effect a `git worktree add`? -/
def WtEffect.isAdd : WtEffect → Bool
  | .fetch _ _ => false
  | .worktreeAdd _ => true

/-- `createWorktree`: the trace of git commands it issues together with its
outcome.  `fetchFails` says whether the fetch (if attempted) throws; the
`try/catch` swallows that error, so the call proceeds to `worktree add`
either way. -/
def createWorktree (worktreePath : String) (ref : String)
    (createBranch : Bool) (pullLatest : Bool) (sourceBranch : Option String)
    (fetchFails : Bool) : Except String Unit × List WtEffect :=
  let fetchEffects :=
    if pullLatest && !matchesShaPattern ref then
      let refToPull := if truthyArg sourceBranch then sourceBranch.getD "" else ref
      -- a throw from `git.fetch` is caught: logged, and execution continues
      let _swallowed := fetchFails
      [WtEffect.fetch "origin" refToPull]
    else
      []
  let args :=
    if createBranch then
      [worktreePath, "-b", ref] ++
        (if pullLatest && truthyArg sourceBranch then
          ["origin/" ++ sourceBranch.getD ""]
        else if truthyArg sourceBranch then
          [sourceBranch.getD ""]
        else
          [])
    else
      [worktreePath, ref]
  (.ok (), fetchEffects ++ [WtEffect.worktreeAdd args])

/-! ## Board channel routing (`join-board` / `leave-board` handlers)

The daemon keeps a registry of named channels, each holding the connections
joined to it.  The `join-board` handler first leaves every channel whose name
starts with `board-`, then joins `board-<boardId>`.  `publish` fans an event
out to the members of one channel only. -/

/-- A channel registry: channel name to joined connection ids. -/
abbrev ChannelTable := List (List Char × List Nat)

/-- `app.channel(name).leave(connection)`: drop the connection from the named
channel. -/
def channelLeave (chs : ChannelTable) (name : List Char) (conn : Nat) : ChannelTable :=
  chs.map (fun ch => if ch.1 = name then (ch.1, ch.2.filter (fun c => c ≠ conn)) else ch)

/-- `app.channel(name).join(connection)`: add the connection to the named
channel, creating the channel on first use; joining twice is a no-op. -/
def channelJoin (chs : ChannelTable) (name : List Char) (conn : Nat) : ChannelTable :=
  if chs.any (fun ch => ch.1 = name) then
    chs.map (fun ch =>
      if ch.1 = name then (ch.1, if ch.2.contains conn then ch.2 else ch.2 ++ [conn]) else ch)
  else
    chs ++ [(name, [conn])]

/-- The leave pass of the `join-board` handler, applied to one registry
entry: a channel whose name starts with `board-` loses the connection, any
other channel is untouched. -/
def leaveBoardChans (conn : Nat) (ch : List Char × List Nat) : List Char × List Nat :=
  if ("board-".toList).isPrefixOf ch.1 then (ch.1, ch.2.filter (fun c => c ≠ conn)) else ch

/-- The `join-board` handler: leave every channel whose name starts with
`board-`, then join `board-<boardId>`. -/
def joinBoardHandler (chs : ChannelTable) (boardId : List Char) (conn : Nat) : ChannelTable :=
  let left := chs.map (leaveBoardChans conn)
  channelJoin left ("board-".toList ++ boardId) conn

/-- The `leave-board` handler: leave `board-<boardId>` only. -/
def leaveBoardHandler (chs : ChannelTable) (boardId : List Char) (conn : Nat) : ChannelTable :=
  channelLeave chs ("board-".toList ++ boardId) conn

/-- `publish(channelId, event)` delivers the event to exactly the connections
currently joined to that channel. -/
def publishTargets (chs : ChannelTable) (name : List Char) : List Nat :=
  ((chs.filter (fun ch => ch.1 = name)).map (fun ch => ch.2)).flatten

/-! ## WorktreeManager lock -/

/-- Result of a `WorktreeManager.acquire` call. -/
inductive AcquireResult where
  | acquired
  | worktreeLocked
  deriving Repr, DecidableEq

/-- Modelled from the spec: the WorktreeManager lock implementation is not in
the sources; per §4.1 and §9, the lock is a nullable lock-holder session id on
the Worktree record and `acquire` is an atomic check-and-set on that field:
it succeeds exactly when no holder is present. -/
def acquire (lock : Option Nat) (sessionId : Nat) : Option Nat × AcquireResult :=
  match lock with
  | none => (some sessionId, .acquired)
  | some holder => (some holder, .worktreeLocked)

/-- Modelled from the spec: `release` clears the lock-holder field. -/
def release (_lock : Option Nat) : Option Nat := none

/-- A race of `acquire` calls against one worktree: since each call is atomic,
the race executes as the calls in some arrival order, each observing the lock
state the previous one left.  Returns the final lock state and each call's
result, in arrival order. -/
def runAcquires (lock : Option Nat) : List Nat → Option Nat × List AcquireResult
  | [] => (lock, [])
  | sid :: rest =>
    let step := acquire lock sid
    let next := runAcquires step.1 rest
    (next.1, step.2 :: next.2)

/-! ## SessionOrchestrator task indexing -/

/-- Status of a task inside a session. -/
inductive TaskStatus where
  | pending
  | running
  | completed
  | failed
  deriving Repr, DecidableEq

/-- A task record kept by the orchestrator: the session-local index it was
assigned, and its status. -/
structure OTask where
  index : Nat
  status : TaskStatus
  deriving Repr, DecidableEq

/-- An event arriving from the agent stream.  A `taskStart` carries whatever
index the agent process claims for the turn; that value is untrusted and may
arrive out of order. -/
inductive AgentEvent where
  | taskStart (sourceIndex : Nat)
  | message (taskRef : Nat)
  | taskEnd (taskRef : Nat) (ok : Bool)
  deriving Repr, DecidableEq

/-- The per-session state owned by the orchestrator. -/
structure SessionState where
  tasks : List OTask
  deriving Repr, DecidableEq

/-- The initial session state: no tasks yet. -/
def SessionState.init : SessionState := { tasks := [] }

/-- Modelled from the spec: the SessionOrchestrator event loop is not in the
sources; per §4.2, each event is applied as a single serialized mutation and
task indices are assigned by the orchestrator — a new task gets index equal to
the number of tasks already recorded, and the index claimed by the event
source is ignored. -/
def applyEvent (s : SessionState) : AgentEvent → SessionState
  | .taskStart _ => { tasks := s.tasks ++ [{ index := s.tasks.length, status := .running }] }
  | .message _ => s
  | .taskEnd taskRef ok =>
    { tasks := s.tasks.map (fun t =>
        if t.index = taskRef then { t with status := if ok then .completed else .failed } else t) }

/-- Consume a whole event stream. -/
def runEvents (s : SessionState) (events : List AgentEvent) : SessionState :=
  events.foldl applyEvent s

/-! ## GenealogyTracker -/

/-- Fork or spawn. -/
inductive EdgeKind where
  | fork
  | spawn
  deriving Repr, DecidableEq

/-- A genealogy edge: the target session was forked/spawned from a task of the
source session. -/
structure GEdge where
  source : Nat
  sourceTask : Nat
  target : Nat
  kind : EdgeKind
  deriving Repr, DecidableEq

/-- The sessions an edge points at a given session from: the sources of the
edges whose target is `sid`. -/
def parentsOf (g : List GEdge) (sid : Nat) : List Nat :=
  (g.filter (fun e => e.target = sid)).map (fun e => e.source)

/-- Fuelled ancestor walk: parents, parents of parents, …  The fuel bounds the
depth of the walk. -/
def ancestorsOfAux (g : List GEdge) : Nat → List Nat → List Nat
  | 0, _ => []
  | fuel + 1, frontier =>
    let ps := frontier.flatMap (parentsOf g)
    ps ++ ancestorsOfAux g fuel ps

/-- Modelled from the spec: the GenealogyTracker is not in the sources; per
§4.5, `ancestorsOf` returns the transitive ancestors of a session along
recorded edges.  A walk of depth `|g| + 1` suffices on any graph with `|g|`
edges. -/
def ancestorsOf (g : List GEdge) (sid : Nat) : List Nat :=
  ancestorsOfAux g (g.length + 1) [sid]

/-- Is `a` a transitive ancestor of `b` in `g`? -/
def isAncestor (g : List GEdge) (a b : Nat) : Bool :=
  (ancestorsOf g b).contains a

/-- Genealogy errors. -/
inductive GenealogyError where
  | cycleDetected
  deriving Repr, DecidableEq

/-- Modelled from the spec: per §4.5, `recordEdge` first checks that the
target is not already a transitive ancestor of the source (rejecting with
`CycleDetected` and leaving the graph unchanged), then appends the edge. -/
def recordEdge (g : List GEdge) (source sourceTask target : Nat) (kind : EdgeKind) :
    Except GenealogyError (List GEdge) :=
  if isAncestor g target source then
    .error .cycleDetected
  else
    .ok (g ++ [{ source := source, sourceTask := sourceTask, target := target, kind := kind }])

/-! ## PermissionMediator -/

/-- The state machine of a PermissionRequest. -/
inductive PermState where
  | pending
  | approved
  | denied
  | timedOut
  deriving Repr, DecidableEq

/-- What the suspended task observes when the request settles. -/
inductive PermOutcome where
  | allow
  | deny
  deriving Repr, DecidableEq

/-- A pending permission request: creation time and timeout budget. -/
structure PermissionRequest where
  createdAt : Nat
  timeout : Nat
  deriving Repr, DecidableEq

/-- Modelled from the spec: the PermissionMediator is not in the sources; per
§4.3, `request` suspends the calling task until a decision arrives or the
timeout elapses.  `decision` is the operator's answer and its arrival time, or
`none` when no decision ever arrives.  A decision landing at or after the
deadline is too late: the request has already timed out.  Timeout denies
(fail closed). -/
def settleRequest (r : PermissionRequest) (decision : Option (Nat × Bool)) :
    PermState × PermOutcome :=
  match decision with
  | none => (.timedOut, .deny)
  | some (at_, approve) =>
    if at_ < r.createdAt + r.timeout then
      if approve then (.approved, .allow) else (.denied, .deny)
    else
      (.timedOut, .deny)

/-! ## Theorems -/

/-- C10: with `pullLatest = true`, `createWorktree` attempts a fetch from
origin exactly when the ref is not a 7-to-40-character lowercase-hex string,
a `worktree add` command always runs, and the call succeeds even when the
fetch fails. -/
theorem createWorktree_fetch_policy (worktreePath ref : String) (createBranch : Bool)
    (sourceBranch : Option String) (fetchFails : Bool) :
    ((createWorktree worktreePath ref createBranch true sourceBranch fetchFails).2.any
        WtEffect.isFetch) = !matchesShaPattern ref
    ∧ ((createWorktree worktreePath ref createBranch true sourceBranch fetchFails).2.any
        WtEffect.isAdd) = true
    ∧ (createWorktree worktreePath ref createBranch true sourceBranch fetchFails).1
        = Except.ok () := by
  unfold createWorktree
  by_cases h : matchesShaPattern ref <;>
    simp [h, WtEffect.isFetch, WtEffect.isAdd]

/-- C5: `getGitState` reads the git environment at call time — its value is
determined by the current observation at the path — and returns `"unknown"`
when the path is not a repo or the SHA cannot be determined, the bare SHA for
a clean working directory, and the SHA suffixed `-dirty` otherwise. -/
theorem getGitState_on_demand (env env2 : String → GitObservation) (repoPath : String) :
    (env repoPath = env2 repoPath → getGitState env repoPath = getGitState env2 repoPath)
    ∧ ((env repoPath).statusOk = false → getGitState env repoPath = "unknown")
    ∧ ((env repoPath).logHash = none → getGitState env repoPath = "unknown")
    ∧ ((env repoPath).logHash = some "" → getGitState env repoPath = "unknown")
    ∧ (∀ sha, (env repoPath).logHash = some sha → sha ≠ "" → (env repoPath).statusOk = true →
        getGitState env repoPath = if (env repoPath).clean then sha else sha ++ "-dirty") := by
  refine ⟨fun h => ?_, fun h => ?_, fun h => ?_, fun h => ?_, fun sha h hne hok => ?_⟩
  · unfold getGitState isGitRepo isClean
    rw [h]
  · simp [getGitState, isGitRepo, h]
  · simp [getGitState, isGitRepo, h]
  · simp [getGitState, isGitRepo, h]
  · simp [getGitState, isGitRepo, isClean, h, hne, hok]

/-- Witness for C5 at a concrete environment: a dirty repo at `"/r"` yields
the suffixed SHA. -/
theorem getGitState_on_demand_witness :
    getGitState (fun _ => { statusOk := true, logHash := some "abc123", clean := false }) "/r"
      = "abc123-dirty" := by
  have h := (getGitState_on_demand
    (fun _ => { statusOk := true, logHash := some "abc123", clean := false })
    (fun _ => { statusOk := true, logHash := some "abc123", clean := false }) "/r").2.2.2.2
    "abc123" rfl (by decide) rfl
  simpa using h

/-- C8: a permission request that receives no decision within its timeout
settles as `timed_out` (it does not stay `pending`) and the task that raised
it observes a deny outcome. -/
theorem permission_timeout_denies (r : PermissionRequest) (decision : Option (Nat × Bool))
    (h : ∀ t d, decision = some (t, d) → r.createdAt + r.timeout ≤ t) :
    (settleRequest r decision).1 = PermState.timedOut
    ∧ (settleRequest r decision).2 = PermOutcome.deny
    ∧ (settleRequest r decision).1 ≠ PermState.pending := by
  cases decision with
  | none => simp [settleRequest]
  | some td =>
    obtain ⟨t, d⟩ := td
    have ht := h t d rfl
    simp [settleRequest, Nat.not_lt.mpr ht]

/-- Witness for C8: a request created at time 0 with timeout 30 and no
decision times out and denies. -/
theorem permission_timeout_denies_witness :
    (settleRequest { createdAt := 0, timeout := 30 } none).1 = PermState.timedOut
    ∧ (settleRequest { createdAt := 0, timeout := 30 } none).2 = PermOutcome.deny
    ∧ (settleRequest { createdAt := 0, timeout := 30 } none).1 ≠ PermState.pending :=
  permission_timeout_denies { createdAt := 0, timeout := 30 } none
    (fun t d h => by cases h)

/-- C4: when the clone target directory already exists, `cloneRepo` returns
the already-exists error, and its effect trace contains no git command — the
only effect is the `mkdir -p` of the repos directory, which does not touch
the existing target. -/
theorem cloneRepo_target_exists_no_git (url : String) (targetDir : Option String)
    (bare : Bool) (home : String) (fs : List String) (repoName : String)
    (hname : extractRepoName url = some repoName)
    (hexists : fs.contains (targetDir.getD (getReposDir home ++ "/" ++ repoName)) = true) :
    cloneRepo url targetDir bare home fs
      = (.error (.alreadyExists (targetDir.getD (getReposDir home ++ "/" ++ repoName))),
         [.mkdirRec (getReposDir home)])
    ∧ ∀ e ∈ (cloneRepo url targetDir bare home fs).2, e.isGit = false := by
  have hmain : cloneRepo url targetDir bare home fs
      = (.error (.alreadyExists (targetDir.getD (getReposDir home ++ "/" ++ repoName))),
         [.mkdirRec (getReposDir home)]) := by
    have hmem : targetDir.getD (getReposDir home ++ "/" ++ repoName) ∈ fs := by
      simpa using hexists
    unfold cloneRepo
    rw [hname]
    simp [hmem]
  refine ⟨hmain, ?_⟩
  rw [hmain]
  simp [CloneEffect.isGit]

/-- Witness for C4: cloning `r.git` into a filesystem that already holds
`/home/.agor/repos/r` stops with the already-exists error and runs no git
command. -/
theorem cloneRepo_target_exists_no_git_witness :
    cloneRepo "https://github.com/o/r.git" none false "/home" ["/home/.agor/repos/r"]
      = (.error (.alreadyExists "/home/.agor/repos/r"), [.mkdirRec "/home/.agor/repos"])
    ∧ ∀ e ∈ (cloneRepo "https://github.com/o/r.git" none false "/home"
        ["/home/.agor/repos/r"]).2, e.isGit = false := by
  have h := cloneRepo_target_exists_no_git "https://github.com/o/r.git" none false "/home"
    ["/home/.agor/repos/r"] "r" (by decide) (by decide)
  simpa using h

/-- Applying one agent event preserves the task-index invariant: indices read
`0, 1, …, n-1` in order. -/
theorem applyEvent_preserves_indices (s : SessionState)
    (h : s.tasks.map OTask.index = List.range s.tasks.length) (ev : AgentEvent) :
    (applyEvent s ev).tasks.map OTask.index = List.range (applyEvent s ev).tasks.length := by
  cases ev with
  | taskStart src => simp [applyEvent, List.range_succ, h]
  | message _ => simpa [applyEvent] using h
  | taskEnd taskRef ok =>
    simp only [applyEvent, List.map_map, List.length_map]
    have hcomp : (OTask.index ∘ fun t =>
        if t.index = taskRef then
          { t with status := if ok then TaskStatus.completed else TaskStatus.failed }
        else t) = OTask.index := by
      funext t
      by_cases ht : t.index = taskRef <;> simp [ht, Function.comp]
    rw [hcomp, h]

/-- The task-index invariant holds after consuming any event stream from any
state satisfying it. -/
theorem runEvents_preserves_indices (events : List AgentEvent) : ∀ s : SessionState,
    s.tasks.map OTask.index = List.range s.tasks.length →
    (runEvents s events).tasks.map OTask.index
      = List.range (runEvents s events).tasks.length := by
  induction events with
  | nil => intro s h; simpa [runEvents] using h
  | cons ev rest ih =>
    intro s h
    simpa [runEvents] using ih (applyEvent s ev) (applyEvent_preserves_indices s h ev)

/-- C2: after any sequence of agent events — in whatever order the agent
stream delivers them — the indices of a session's tasks are exactly
`0, 1, 2, …` with no gaps and no repeats, because the orchestrator assigns
each new task the next index itself and ignores the index claimed by the
event source. -/
theorem session_task_indices_gap_free (events : List AgentEvent) :
    ((runEvents SessionState.init events).tasks.map OTask.index)
      = List.range ((runEvents SessionState.init events).tasks.length) :=
  runEvents_preserves_indices events SessionState.init (by simp [SessionState.init])

/-- Once a worktree lock is held, every further `acquire` fails and the
holder does not change. -/
theorem runAcquires_locked (holder : Nat) (sids : List Nat) :
    runAcquires (some holder) sids
      = (some holder, List.replicate sids.length AcquireResult.worktreeLocked) := by
  induction sids with
  | nil => rfl
  | cons a rest ih => simp [runAcquires, acquire, ih, List.replicate_succ]

/-- C1: when several `acquire` calls race against the same unlocked worktree,
exactly one succeeds (the first to hit the atomic check-and-set) and every
other call fails with `WorktreeLocked`; the lock field holds at most one
session id throughout, so at most one session holds the lock at any time. -/
theorem acquire_race_exactly_one (sids : List Nat) (h : sids ≠ []) :
    (runAcquires none sids).2
        = AcquireResult.acquired
          :: List.replicate (sids.length - 1) AcquireResult.worktreeLocked
    ∧ ((runAcquires none sids).2.count AcquireResult.acquired) = 1
    ∧ ∀ r ∈ (runAcquires none sids).2,
        r ≠ AcquireResult.acquired → r = AcquireResult.worktreeLocked := by
  match sids with
  | [] => exact absurd rfl h
  | a :: rest =>
    have hrun : (runAcquires none (a :: rest)).2
        = AcquireResult.acquired
          :: List.replicate rest.length AcquireResult.worktreeLocked := by
      simp [runAcquires, acquire, runAcquires_locked]
    refine ⟨by simpa using hrun, ?_, ?_⟩
    · rw [hrun]
      rw [List.count_cons_self]
      rw [List.count_eq_zero.mpr (by simp)]
    · rw [hrun]
      intro r hr hne
      rcases List.mem_cons.mp hr with h1 | h1
      · exact absurd h1 hne
      · exact List.eq_of_mem_replicate h1

/-- Witness for C1: three racing sessions — the first acquires, the other
two are refused. -/
theorem acquire_race_exactly_one_witness :
    (runAcquires none [4, 7, 9]).2
        = AcquireResult.acquired
          :: List.replicate 2 AcquireResult.worktreeLocked
    ∧ ((runAcquires none [4, 7, 9]).2.count AcquireResult.acquired) = 1 := by
  have h := acquire_race_exactly_one [4, 7, 9] (by decide)
  exact ⟨h.1, h.2.1⟩

/-- C7: a successful `recordEdge` makes the source session an ancestor of the
target (`ancestorsOf(target)` includes `source`), and an edge whose target is
already a transitive ancestor of its source is rejected with `CycleDetected`
— the rejection returns only the error, leaving the graph value unchanged. -/
theorem recordEdge_ancestor_roundtrip (g : List GEdge) (src stask tgt : Nat) (k : EdgeKind) :
    (∀ g2, recordEdge g src stask tgt k = .ok g2 → src ∈ ancestorsOf g2 tgt)
    ∧ (isAncestor g tgt src = true →
        recordEdge g src stask tgt k = .error GenealogyError.cycleDetected) := by
  constructor
  · intro g2 hok
    unfold recordEdge at hok
    by_cases hc : isAncestor g tgt src
    · simp [hc] at hok
    · simp [hc] at hok
      subst hok
      unfold ancestorsOf
      simp only [ancestorsOfAux]
      apply List.mem_append_left
      simp [parentsOf]
  · intro hc
    simp [recordEdge, hc]

/-- Witness for C7: recording `0 → 1` makes `0` an ancestor of `1`, and with
`5 → 7` recorded, the edge `7 → 5` is rejected as a cycle. -/
theorem recordEdge_ancestor_roundtrip_witness :
    0 ∈ ancestorsOf [{ source := 0, sourceTask := 3, target := 1, kind := EdgeKind.fork }] 1
    ∧ recordEdge [{ source := 5, sourceTask := 0, target := 7, kind := EdgeKind.fork }]
        7 2 5 EdgeKind.spawn = .error GenealogyError.cycleDetected := by
  constructor
  · exact (recordEdge_ancestor_roundtrip [] 0 3 1 EdgeKind.fork).1
      [{ source := 0, sourceTask := 3, target := 1, kind := EdgeKind.fork }] (by rfl)
  · exact (recordEdge_ancestor_roundtrip
      [{ source := 5, sourceTask := 0, target := 7, kind := EdgeKind.fork }]
      7 2 5 EdgeKind.spawn).2 (by decide)

/-- A list is a prefix of itself followed by anything. -/
theorem isPrefixOf_append_self (p t : List Char) : p.isPrefixOf (p ++ t) = true := by
  rw [List.isPrefixOf_iff_prefix]
  exact List.prefix_append _ _

/-- After the leave-all-board-channels pass of the `join-board` handler, the
connection is in no channel whose name starts with `board-`. -/
theorem leaveAll_not_mem (chs : ChannelTable) (conn : Nat) (p : List Char × List Nat)
    (hp : p ∈ chs.map (leaveBoardChans conn))
    (hpre : ("board-".toList).isPrefixOf p.1 = true) : conn ∉ p.2 := by
  rcases List.mem_map.mp hp with ⟨r, _, rfl⟩
  unfold leaveBoardChans at hpre ⊢
  by_cases hr : ("board-".toList).isPrefixOf r.1
  · simp only [hr, if_true]
    simp [List.mem_filter]
  · simp only [hr, if_false] at hpre
    exact absurd hpre (by simpa using hr)

/-- Membership in a table after `channelJoin`: every entry either is a channel
with the joined name now containing the connection, or is an untouched entry
with a different name. -/
theorem channelJoin_mem_cases (chs : ChannelTable) (name : List Char) (conn : Nat)
    (p : List Char × List Nat) (hp : p ∈ channelJoin chs name conn) :
    (p.1 = name ∧ conn ∈ p.2) ∨ (p.1 ≠ name ∧ p ∈ chs) := by
  unfold channelJoin at hp
  by_cases hany : chs.any (fun ch => ch.1 = name)
  · simp only [hany, if_true] at hp
    rcases List.mem_map.mp hp with ⟨q, hq, rfl⟩
    by_cases hqn : q.1 = name
    · left
      refine ⟨by simp [hqn], ?_⟩
      by_cases hc : conn ∈ q.2 <;> simp [hqn, hc]
    · right
      simpa [hqn] using hq
  · simp only [hany, if_false] at hp
    rcases List.mem_append.mp hp with h1 | h1
    · right
      refine ⟨?_, h1⟩
      intro heq
      exact hany (List.any_eq_true.mpr ⟨p, h1, by simp [heq]⟩)
    · left
      rcases List.mem_singleton.mp h1 with rfl
      simp

/-- C6: after the `join-board` handler runs for board `b`, the connection is a
member of exactly one board channel — `board-<b>` — so an event published to
any other board channel (for example a previously joined `board-<b1>`) is no
longer delivered to that connection. -/
theorem joinBoard_single_active_board (chs : ChannelTable) (conn : Nat) (b : List Char) :
    (∀ p ∈ joinBoardHandler chs b conn,
        ("board-".toList).isPrefixOf p.1 = true →
          (conn ∈ p.2 ↔ p.1 = "board-".toList ++ b))
    ∧ ∀ b1 : List Char, b1 ≠ b →
        conn ∉ publishTargets (joinBoardHandler chs b conn) ("board-".toList ++ b1) := by
  have hmain : ∀ p ∈ joinBoardHandler chs b conn,
      ("board-".toList).isPrefixOf p.1 = true →
        (conn ∈ p.2 ↔ p.1 = "board-".toList ++ b) := by
    intro p hp hpre
    unfold joinBoardHandler at hp
    rcases channelJoin_mem_cases _ _ _ _ hp with ⟨hname, hconn⟩ | ⟨hname, hmem⟩
    · simp [hname, hconn]
    · simp only [hname, iff_false]
      exact leaveAll_not_mem chs conn p hmem hpre
  refine ⟨hmain, ?_⟩
  intro b1 hne hmem
  unfold publishTargets at hmem
  rcases List.mem_flatten.mp hmem with ⟨ms, hms, hconn⟩
  rcases List.mem_map.mp hms with ⟨q, hq, rfl⟩
  rcases List.mem_filter.mp hq with ⟨hqmem, hqname⟩
  have hqn : q.1 = "board-".toList ++ b1 := by simpa using hqname
  have := (hmain q hqmem (by rw [hqn]; exact isPrefixOf_append_self _ _)).mp hconn
  rw [hqn] at this
  exact hne (List.append_cancel_left this)

/-- Witness for C6: connection 7 is joined to `board-B1`; after `join-board`
for `B2` it is no longer a member of `board-B1`, and is a member of
`board-B2`. -/
theorem joinBoard_single_active_board_witness :
    (7 ∉ publishTargets
        (joinBoardHandler [("board-B1".toList, [7])] ("B2".toList) 7) ("board-B1".toList))
    ∧ (7 ∈ publishTargets
        (joinBoardHandler [("board-B1".toList, [7])] ("B2".toList) 7) ("board-B2".toList)) := by
  constructor
  · have h := (joinBoard_single_active_board [("board-B1".toList, [7])] 7 ("B2".toList)).2
      ("B1".toList) (by decide)
    simpa using h
  · decide

/-- One parser step only ever appends a record whose `path` and `sha` are
truthy. -/
theorem worktreeLineStep_acc (st : WorktreeInfoP × List WorktreeInfoP) (line : List Char)
    (w : WorktreeInfoP) (hw : w ∈ (worktreeLineStep st line).2) :
    w ∈ st.2 ∨ (truthyStr w.path = true ∧ truthyStr w.sha = true) := by
  simp only [worktreeLineStep] at hw
  repeat' split at hw
  all_goals first
    | exact Or.inl hw
    | · rcases List.mem_append.mp hw with h1 | h1
        · exact Or.inl h1
        · rcases List.mem_singleton.mp h1 with rfl
          rename_i hguard
          exact Or.inr (by simpa using hguard)

/-- Folding any lines through the parser only appends truthy records to the
accumulator. -/
theorem foldl_worktreeLineStep_acc (lines : List (List Char)) :
    ∀ st : WorktreeInfoP × List WorktreeInfoP,
      ∀ w ∈ (lines.foldl worktreeLineStep st).2,
        w ∈ st.2 ∨ (truthyStr w.path = true ∧ truthyStr w.sha = true) := by
  induction lines with
  | nil => intro st w hw; exact Or.inl hw
  | cons line rest ih =>
    intro st w hw
    rw [List.foldl_cons] at hw
    rcases ih (worktreeLineStep st line) w hw with h1 | h1
    · exact worktreeLineStep_acc st line w h1
    · exact Or.inr h1

/-- C9: every record `listWorktrees` returns has both its `path` and its
`sha` defined (the parser pushes a record only when both are present), so a
porcelain record lacking a `worktree ` or `HEAD ` line — such as a
bare-repository entry — is silently omitted from the (always successfully
returned) list rather than reported as an error. -/
theorem listWorktrees_entries_defined (output : List Char) :
    ∀ w ∈ listWorktreesParse output, w.path.isSome = true ∧ w.sha.isSome = true := by
  intro w hw
  have htruthy : truthyStr w.path = true ∧ truthyStr w.sha = true := by
    simp only [listWorktreesParse] at hw
    split at hw
    · rcases List.mem_append.mp hw with h1 | h1
      · rcases foldl_worktreeLineStep_acc _ _ w h1 with h2 | h2
        · simp at h2
        · exact h2
      · rcases List.mem_singleton.mp h1 with rfl
        rename_i hguard
        simpa using hguard
    · rcases foldl_worktreeLineStep_acc _ _ w hw with h2 | h2
      · simp at h2
      · exact h2
  constructor
  · rcases hp : w.path with _ | p
    · rw [hp] at htruthy; simp [truthyStr] at htruthy
    · rfl
  · rcases hs : w.sha with _ | s
    · rw [hs] at htruthy; simp [truthyStr] at htruthy
    · rfl

/-- Witness for C9: a concrete porcelain output with a record lacking a
`worktree ` line — the parsed list holds one record, with path and sha
defined, and the malformed record is omitted. -/
theorem listWorktrees_entries_defined_witness :
    (⟨some ("a".toList), some ("/a".toList), none, some ("abc".toList), none⟩
        : WorktreeInfoP).path.isSome = true
    ∧ (⟨some ("a".toList), some ("/a".toList), none, some ("abc".toList), none⟩
        : WorktreeInfoP).sha.isSome = true := by
  exact listWorktrees_entries_defined ("worktree /a\nHEAD abc\n\nbare\n".toList)
    ⟨some ("a".toList), some ("/a".toList), none, some ("abc".toList), none⟩ (by decide)

/-- Parsing a `worktree ` line records the path and its basename. -/
theorem step_worktree_line (cur : WorktreeInfoP) (acc : List WorktreeInfoP) (p : List Char) :
    worktreeLineStep (cur, acc) ("worktree ".toList ++ p)
      = ({ cur with path := some p, name := some (basenameChars p) }, acc) := by
  have hdrop : ("worktree ".toList ++ p).drop 9 = p := by
    have h9 : (9 : ℕ) = ("worktree ".toList).length := rfl
    rw [h9, List.drop_left]
  simp only [worktreeLineStep, isPrefixOf_append_self, if_true, hdrop]

/-- Parsing a `HEAD ` line records the SHA. -/
theorem step_head_line (cur : WorktreeInfoP) (acc : List WorktreeInfoP) (s : List Char) :
    worktreeLineStep (cur, acc) ("HEAD ".toList ++ s)
      = ({ cur with sha := some s }, acc) := by
  have h1 : ("worktree ".toList).isPrefixOf ("HEAD ".toList ++ s) = false := rfl
  have hdrop : ("HEAD ".toList ++ s).drop 5 = s := by
    have h5 : (5 : ℕ) = ("HEAD ".toList).length := rfl
    rw [h5, List.drop_left]
  simp only [worktreeLineStep, h1, isPrefixOf_append_self, Bool.false_eq_true, if_false,
    if_true, hdrop]

/-- Parsing a `branch ` line records the ref (first `refs/heads/` occurrence
removed) and marks the record attached. -/
theorem step_branch_line (cur : WorktreeInfoP) (acc : List WorktreeInfoP) (br : List Char) :
    worktreeLineStep (cur, acc) ("branch ".toList ++ br)
      = ({ cur with
           ref := some (jsReplaceOnce ("refs/heads/".toList) br)
           detached := some false }, acc) := by
  have h1 : ("worktree ".toList).isPrefixOf ("branch ".toList ++ br) = false := rfl
  have h2 : ("HEAD ".toList).isPrefixOf ("branch ".toList ++ br) = false := rfl
  have hdrop : ("branch ".toList ++ br).drop 7 = br := by
    have h7 : (7 : ℕ) = ("branch ".toList).length := rfl
    rw [h7, List.drop_left]
  simp only [worktreeLineStep, h1, h2, isPrefixOf_append_self, Bool.false_eq_true, if_false,
    if_true, hdrop]

/-- Parsing a `detached` line marks the record detached. -/
theorem step_detached_line (cur : WorktreeInfoP) (acc : List WorktreeInfoP) :
    worktreeLineStep (cur, acc) ("detached".toList)
      = ({ cur with detached := some true }, acc) := by
  have h1 : ("worktree ".toList).isPrefixOf ("detached".toList) = false := rfl
  have h2 : ("HEAD ".toList).isPrefixOf ("detached".toList) = false := rfl
  have h3 : ("branch ".toList).isPrefixOf ("detached".toList) = false := rfl
  have h4 : ("detached".toList).isPrefixOf ("detached".toList) = true := by decide
  simp only [worktreeLineStep, h1, h2, h3, h4, Bool.false_eq_true, if_false, if_true]

/-- A blank line pushes the current record when its path and sha are truthy,
and resets the accumulator. -/
theorem step_blank_push (cur : WorktreeInfoP) (acc : List WorktreeInfoP)
    (hpath : truthyStr cur.path = true) (hsha : truthyStr cur.sha = true) :
    worktreeLineStep (cur, acc) [] = (WorktreeInfoP.empty, acc ++ [cur]) := by
  have h1 : ("worktree ".toList).isPrefixOf ([] : List Char) = false := rfl
  have h2 : ("HEAD ".toList).isPrefixOf ([] : List Char) = false := rfl
  have h3 : ("branch ".toList).isPrefixOf ([] : List Char) = false := rfl
  have h4 : ("detached".toList).isPrefixOf ([] : List Char) = false := rfl
  simp only [worktreeLineStep, h1, h2, h3, h4, Bool.false_eq_true, if_false, List.isEmpty_nil,
    if_true, hpath, hsha, Bool.and_self]

/-- Removing the first occurrence of a pattern from a string that starts with
that pattern strips exactly the leading pattern. -/
theorem jsReplaceOnce_eq_strip (br : List Char)
    (h : ("refs/heads/".toList).isPrefixOf br = true) :
    jsReplaceOnce ("refs/heads/".toList) br = stripHeadsRef br := by
  cases br with
  | nil => simp at h
  | cons c rest =>
    unfold jsReplaceOnce stripHeadsRef
    rw [h]
    simp

/-- Folding the rendered lines of one well-formed record from an empty
accumulator produces exactly the record the claim describes. -/
theorem foldl_renderLines (r : PorcelainRec) (acc : List WorktreeInfoP)
    (rest : List (List Char)) (hwf : WfPorcelain r) :
    ((renderLines r ++ rest).foldl worktreeLineStep (WorktreeInfoP.empty, acc))
      = rest.foldl worktreeLineStep (expectedInfo r, acc) := by
  obtain ⟨hp, hpn, hs, hsn, hbr⟩ := hwf
  unfold renderLines
  cases hb : r.branch with
  | some br =>
    simp only [List.cons_append, List.singleton_append, List.foldl_cons,
      step_worktree_line, step_head_line, step_branch_line]
    have hstrip := jsReplaceOnce_eq_strip br (hbr br hb).1
    congr 1
    simp [expectedInfo, WorktreeInfoP.empty, hb]
    exact hstrip
  | none =>
    simp only [List.cons_append, List.singleton_append, List.foldl_cons,
      step_worktree_line, step_head_line, step_detached_line]
    congr 1
    simp [expectedInfo, WorktreeInfoP.empty, hb]

/-- A well-formed record parses to a record with truthy path. -/
theorem expectedInfo_truthy_path (r : PorcelainRec) (hwf : WfPorcelain r) :
    truthyStr (expectedInfo r).path = true := by
  obtain ⟨hp, _, _, _, _⟩ := hwf
  simp [expectedInfo, truthyStr, hp]

/-- A well-formed record parses to a record with truthy sha. -/
theorem expectedInfo_truthy_sha (r : PorcelainRec) (hwf : WfPorcelain r) :
    truthyStr (expectedInfo r).sha = true := by
  obtain ⟨_, _, hs, _, _⟩ := hwf
  simp [expectedInfo, truthyStr, hs]

/-- Folding whole record blocks — each record's lines followed by a blank
line — appends the expected records and leaves an empty current record. -/
theorem foldl_blocks (recs : List PorcelainRec) :
    ∀ acc : List WorktreeInfoP, (∀ r ∈ recs, WfPorcelain r) →
    ((recs.flatMap (fun r => renderLines r ++ [[]])).foldl worktreeLineStep
        (WorktreeInfoP.empty, acc))
      = (WorktreeInfoP.empty, acc ++ recs.map expectedInfo) := by
  induction recs with
  | nil => intro acc _; simp
  | cons r rs ih =>
    intro acc hwf
    have hshape : (r :: rs).flatMap (fun x => renderLines x ++ [[]])
        = renderLines r ++ ([] :: rs.flatMap (fun x => renderLines x ++ [[]])) := by
      simp
    rw [hshape, foldl_renderLines r acc _ (hwf r (List.mem_cons_self r rs)), List.foldl_cons,
      step_blank_push _ _ (expectedInfo_truthy_path r (hwf r (List.mem_cons_self r rs)))
        (expectedInfo_truthy_sha r (hwf r (List.mem_cons_self r rs))),
      ih (acc ++ [expectedInfo r]) (fun x hx => hwf x (List.mem_cons_of_mem r hx))]
    simp

/-- The line sequence of a nonempty output followed by one blank line is the
concatenation of blank-terminated record blocks. -/
theorem porcelainLines_append_blank (recs : List PorcelainRec) (h : recs ≠ []) :
    porcelainLines recs ++ [[]] = recs.flatMap (fun r => renderLines r ++ [[]]) := by
  induction recs with
  | nil => exact absurd rfl h
  | cons r rs ih =>
    cases rs with
    | nil => simp [porcelainLines]
    | cons r2 rs2 =>
      have hshape : porcelainLines (r :: r2 :: rs2)
          = renderLines r ++ ([] :: porcelainLines (r2 :: rs2)) := rfl
      rw [hshape]
      have := ih (by simp)
      simp only [List.flatMap_cons]
      rw [List.append_assoc]
      simp only [List.cons_append, List.nil_append] at this ⊢
      rw [show ([] : List Char) :: (porcelainLines (r2 :: rs2) ++ [[]])
            = ([] : List Char) :: ((r2 :: rs2).flatMap (fun x => renderLines x ++ [[]]))
          from by rw [this]]
      simp

/-- The line sequence of an output ending in a record block without a
trailing blank: leading blank-terminated blocks, then the last block. -/
theorem porcelainLines_concat (recs : List PorcelainRec) (r : PorcelainRec) :
    porcelainLines (recs ++ [r])
      = recs.flatMap (fun x => renderLines x ++ [[]]) ++ renderLines r := by
  induction recs with
  | nil => simp [porcelainLines]
  | cons x xs ih =>
    have hne : xs ++ [r] ≠ [] := by simp
    have hshape : porcelainLines (x :: (xs ++ [r]))
        = renderLines x ++ ([] :: porcelainLines (xs ++ [r])) := by
      cases hxs : xs ++ [r] with
      | nil => exact absurd hxs hne
      | cons y ys => rfl
    rw [List.cons_append, hshape, ih]
    simp

/-- The lines rendered for a well-formed record contain no newline. -/
theorem renderLines_no_newline (r : PorcelainRec) (h : WfPorcelain r) :
    ∀ l ∈ renderLines r, '\n' ∉ l := by
  obtain ⟨_, hpn, _, hsn, hbr⟩ := h
  intro l hl
  unfold renderLines at hl
  rcases List.mem_cons.mp hl with rfl | hl2
  · simp [List.mem_append, hpn]
  rcases List.mem_cons.mp hl2 with rfl | hl3
  · simp [List.mem_append, hsn]
  cases hb : r.branch with
  | some br =>
    rw [hb] at hl3
    rcases List.mem_singleton.mp hl3 with rfl
    simp [List.mem_append, (hbr br hb).2]
  | none =>
    rw [hb] at hl3
    rcases List.mem_singleton.mp hl3 with rfl
    decide

/-- No line of a well-formed porcelain output contains a newline. -/
theorem porcelainLines_no_newline (recs : List PorcelainRec)
    (h : ∀ r ∈ recs, WfPorcelain r) : ∀ l ∈ porcelainLines recs, '\n' ∉ l := by
  induction recs with
  | nil => intro l hl; simp [porcelainLines] at hl
  | cons r rs ih =>
    intro l hl
    cases rs with
    | nil =>
      exact renderLines_no_newline r (h r (by simp)) l hl
    | cons r2 rs2 =>
      have hshape : porcelainLines (r :: r2 :: rs2)
          = renderLines r ++ ([] :: porcelainLines (r2 :: rs2)) := rfl
      rw [hshape] at hl
      rcases List.mem_append.mp hl with h1 | h1
      · exact renderLines_no_newline r (h r (by simp)) l h1
      rcases List.mem_cons.mp h1 with rfl | h2
      · simp
      · exact ih (fun x hx => h x (List.mem_cons_of_mem r hx)) l h2

/-- Splitting a separator-free string yields that string as the only field. -/
theorem jsSplitChar_no_sep (sep : Char) (a : List Char) (h : sep ∉ a) :
    jsSplitChar sep a = [a] := by
  induction a with
  | nil => rfl
  | cons c rest ih =>
    have hc : ¬c = sep := fun hcc => h (hcc ▸ List.mem_cons_self c rest)
    have hrest : sep ∉ rest := fun hm => h (List.mem_cons_of_mem c hm)
    simp [jsSplitChar, hc, ih hrest]

/-- Splitting at the first separator occurrence peels off the first field. -/
theorem jsSplitChar_append_sep (sep : Char) (a b : List Char) (h : sep ∉ a) :
    jsSplitChar sep (a ++ sep :: b) = a :: jsSplitChar sep b := by
  induction a with
  | nil => simp [jsSplitChar]
  | cons c rest ih =>
    have hc : ¬c = sep := fun hcc => h (hcc ▸ List.mem_cons_self c rest)
    have hrest : sep ∉ rest := fun hm => h (List.mem_cons_of_mem c hm)
    simp [jsSplitChar, hc, ih hrest]

/-- Splitting on newlines inverts joining newline-free lines. -/
theorem jsSplitChar_joinLines (L : List (List Char)) (h : ∀ l ∈ L, '\n' ∉ l)
    (hne : L ≠ []) : jsSplitChar '\n' (joinLines L) = L := by
  induction L with
  | nil => exact absurd rfl hne
  | cons l ls ih =>
    cases ls with
    | nil => exact jsSplitChar_no_sep '\n' l (h l (by simp))
    | cons l2 ls2 =>
      have hshape : joinLines (l :: l2 :: ls2) = l ++ '\n' :: joinLines (l2 :: ls2) := rfl
      rw [hshape, jsSplitChar_append_sep '\n' l _ (h l (by simp)),
        ih (fun x hx => h x (List.mem_cons_of_mem l hx)) (by simp)]

/-- Appending a newline to joined lines joins the lines with one more blank
line. -/
theorem joinLines_concat_blank (L : List (List Char)) (hne : L ≠ []) :
    joinLines L ++ ['\n'] = joinLines (L ++ [[]]) := by
  induction L with
  | nil => exact absurd rfl hne
  | cons l ls ih =>
    cases ls with
    | nil => rfl
    | cons l2 ls2 =>
      have h1 : joinLines (l :: l2 :: ls2) = l ++ '\n' :: joinLines (l2 :: ls2) := rfl
      have h2 : joinLines (l :: ((l2 :: ls2) ++ [[]]))
          = l ++ '\n' :: joinLines ((l2 :: ls2) ++ [[]]) := rfl
      rw [List.cons_append, h1, h2, List.append_assoc]
      simp only [List.cons_append]
      rw [ih (by simp)]
      simp

/-- C3: `listWorktrees` parses every well-formed `git worktree list
--porcelain` output into one record per blank-line-delimited stanza, where
the path is the text after `worktree `, the sha the text after `HEAD `, the
ref the text after `branch ` with the `refs/heads/` prefix stripped (with
`detached = false`), a `detached` stanza gets `detached = true`, and the
final record is included whether or not the output ends with a trailing
blank line. -/
theorem listWorktrees_parses_porcelain (recs : List PorcelainRec) (trailing : Bool)
    (hwf : ∀ r ∈ recs, WfPorcelain r) :
    listWorktreesParse (porcelainOutput recs trailing) = recs.map expectedInfo := by
  rcases List.eq_nil_or_concat recs with rfl | ⟨init, last, rfl⟩
  · cases trailing <;> rfl
  · simp only [List.concat_eq_append] at hwf ⊢
    have hne : init ++ [last] ≠ [] := by simp
    have hnl : ∀ l ∈ porcelainLines (init ++ [last]), '\n' ∉ l :=
      porcelainLines_no_newline _ hwf
    have hpl : porcelainLines (init ++ [last]) ≠ [] := by
      rw [porcelainLines_concat]
      simp [renderLines]
    cases trailing with
    | false =>
      simp only [listWorktreesParse, porcelainOutput, Bool.false_eq_true, if_false,
        List.append_nil]
      rw [jsSplitChar_joinLines _ hnl hpl, porcelainLines_concat init last,
        List.foldl_append,
        foldl_blocks init [] (fun r hr => hwf r (List.mem_append_left _ hr))]
      simp only [List.nil_append]
      have h2 := foldl_renderLines last (init.map expectedInfo) [] (hwf last (by simp))
      simp only [List.append_nil] at h2
      rw [h2]
      simp only [List.foldl_nil]
      rw [expectedInfo_truthy_path last (hwf last (by simp)),
        expectedInfo_truthy_sha last (hwf last (by simp))]
      simp
    | true =>
      simp only [listWorktreesParse, porcelainOutput, if_true]
      rw [joinLines_concat_blank _ hpl,
        jsSplitChar_joinLines _ ?hnl2 (by simp),
        porcelainLines_append_blank _ hne,
        foldl_blocks (init ++ [last]) [] hwf]
      · simp [WorktreeInfoP.empty, truthyStr]
      case hnl2 =>
        intro l hl
        rcases List.mem_append.mp hl with h1 | h1
        · exact hnl l h1
        · rcases List.mem_singleton.mp h1 with rfl
          simp

/-- Witness for C3: a two-stanza porcelain output — one branch record, one
detached record — with no trailing blank line parses to the two expected
records. -/
theorem listWorktrees_parses_porcelain_witness :
    listWorktreesParse (porcelainOutput
        [⟨"/w/main".toList, "abc123".toList, some ("refs/heads/main".toList)⟩,
         ⟨"/w/det".toList, "def456".toList, none⟩] false)
      = [⟨"/w/main".toList, "abc123".toList, some ("refs/heads/main".toList)⟩,
         ⟨"/w/det".toList, "def456".toList, none⟩].map expectedInfo := by
  apply listWorktrees_parses_porcelain
  intro r hr
  rcases List.mem_cons.mp hr with rfl | hr2
  · refine ⟨by decide, by decide, by decide, by decide, ?_⟩
    intro br hbr
    have hbr2 : br = "refs/heads/main".toList := by
      have h := hbr
      simp at h
      exact h.symm
    subst hbr2
    exact ⟨by decide, by decide⟩
  · rcases List.mem_singleton.mp hr2 with rfl
    refine ⟨by decide, by decide, by decide, by decide, ?_⟩
    intro br hbr
    simp at hbr

end Agor
